/-
Verification of the chunked streaming audio loader in `cpc/dataset.py`.

The Python source is shallowly embedded below: pure fragments become Lean
functions on `Nat`/`Int`/`List`, 32-bit arithmetic is made explicit with
masks mod 2^32, and fallible code returns `Option`.  External collaborators
(the CPython `random` module's Mersenne Twister, `torch.randperm`,
`torch.cat`) are modelled to the extent the loader's behaviour depends on
them: the Mersenne Twister is implemented bit-exactly, `torch.randperm` is
an arbitrary family of draws constrained by the hypotheses that the real
one satisfies, and `torch.cat` fails on an empty list exactly as torch does.
-/
import Mathlib

/-! ## Mersenne Twister (MT19937), as used by CPython `random`

`random.seed(n)` for a nonnegative int seeds via `init_by_array` over the
32-bit little-endian digits of `n`; `random.shuffle` is a Fisher-Yates walk
drawing `_randbelow` with rejection sampling over `getrandbits`. -/

/-- 2^32 - 1, the mask for 32-bit word arithmetic. -/
def mtMask : Nat := 4294967295

/-- Force a natural number to a literal before continuing: keeps the
kernel's call-by-name evaluation of the iterated state updates below at
constant stack depth per iteration. -/
def natForce {α : Type} (n : Nat) (k : Nat → α) : α :=
  match n with
  | 0 => k 0
  | m + 1 => k (m + 1)

/-- The 624-word Mersenne Twister state vector, packed little-endian into a
single natural number (word `i` occupies bits `[32*i, 32*i+32)`); packing
keeps every state update a constant-depth arithmetic step. -/
def wordGet (s i : Nat) : Nat := (s >>> (32 * i)) &&& mtMask

/-- Overwrite word `i` of the packed state vector with `v`. -/
def wordSet (s i v : Nat) : Nat :=
  (s - (wordGet s i <<< (32 * i))) + ((v &&& mtMask) <<< (32 * i))

/-- Tail of the `init_genrand` state:
`mt[i] = (1812433253 * (mt[i-1] xor (mt[i-1] >> 30)) + i) mod 2^32`. -/
def mtInitTail (acc prev i : Nat) : Nat → Nat
  | 0 => acc
  | fuel + 1 =>
    natForce ((1812433253 * (prev ^^^ (prev >>> 30)) + i) &&& mtMask) (fun cur =>
    natForce (wordSet acc i cur) (fun acc2 =>
    mtInitTail acc2 cur (i + 1) fuel))

/-- `init_genrand(s)`: the 624-word state seeded from a single word. -/
def mtInitGenrand (s : Nat) : Nat :=
  let m0 := s &&& mtMask
  mtInitTail m0 m0 1 623

/-- First mixing loop of `init_by_array` (runs `max(624, key.length)` times). -/
def mtIbaLoop1 (key : List Nat) : Nat → Nat × Nat × Nat → Nat × Nat × Nat
  | 0, st => st
  | k + 1, (mt, i, j) =>
    natForce (wordGet mt (i - 1)) (fun prev =>
    natForce (((prev ^^^ (prev >>> 30)) * 1664525) &&& mtMask) (fun m =>
    natForce (((wordGet mt i ^^^ m) + key.getD j 0 + j) &&& mtMask) (fun v =>
    natForce (wordSet mt i v) (fun mt =>
    let p := if 624 ≤ i + 1 then (wordSet mt 0 (wordGet mt 623), 1) else (mt, i + 1)
    let j := if key.length ≤ j + 1 then 0 else j + 1
    natForce p.1 (fun mt2 => mtIbaLoop1 key k (mt2, p.2, j))))))

/-- Second mixing loop of `init_by_array` (runs 623 times, continuing with
the word index where the first loop stopped); the subtraction of the index
is 32-bit wraparound subtraction. -/
def mtIbaLoop2 : Nat → Nat × Nat → Nat × Nat
  | 0, st => st
  | k + 1, (mt, i) =>
    natForce (wordGet mt (i - 1)) (fun prev =>
    natForce (((prev ^^^ (prev >>> 30)) * 1566083941) &&& mtMask) (fun m =>
    natForce (((wordGet mt i ^^^ m) + 4294967296 - i) &&& mtMask) (fun v =>
    natForce (wordSet mt i v) (fun mt =>
    let p := if 624 ≤ i + 1 then (wordSet mt 0 (wordGet mt 623), 1) else (mt, i + 1)
    natForce p.1 (fun mt2 => mtIbaLoop2 k (mt2, p.2))))))

/-- `init_by_array(key)`. -/
def mtInitByArray (key : List Nat) : Nat :=
  let mt := mtInitGenrand 19650218
  let (mt, i, _) := mtIbaLoop1 key (max 624 key.length) (mt, 1, 0)
  let (mt, _) := mtIbaLoop2 623 (mt, i)
  wordSet mt 0 2147483648

/-- Generator state: the packed 624-word vector and the extraction index. -/
structure MT where
  mt : Nat
  mti : Nat
deriving Repr, DecidableEq

/-- One twist pass over the whole state vector. -/
def mtTwistGo (mt kk : Nat) : Nat → Nat
  | 0 => mt
  | fuel + 1 =>
    natForce ((wordGet mt kk &&& 2147483648) ||| (wordGet mt ((kk + 1) % 624) &&& 2147483647)) (fun y =>
    natForce (wordGet mt ((kk + 397) % 624) ^^^ (y >>> 1) ^^^ (if y % 2 = 1 then 2567483615 else 0)) (fun v =>
    natForce (wordSet mt kk v) (fun mt2 => mtTwistGo mt2 (kk + 1) fuel)))

/-- The twist: regenerate all 624 words in place. -/
def mtTwist (mt : Nat) : Nat := mtTwistGo mt 0 624

/-- `genrand_uint32`: twist when exhausted, then temper and extract. -/
def mtGenrand (s : MT) : Nat × MT :=
  let s := if 624 ≤ s.mti then MT.mk (mtTwist s.mt) 0 else s
  let y := wordGet s.mt s.mti
  let y := y ^^^ (y >>> 11)
  let y := y ^^^ ((y <<< 7) &&& 2636928640)
  let y := y ^^^ ((y <<< 15) &&& 4022730752)
  let y := y ^^^ (y >>> 18)
  (y, MT.mk s.mt (s.mti + 1))

/-- The 32-bit little-endian digits of a nonnegative integer, with
structural fuel (`n` itself always suffices, as `n >>> 32` shrinks). -/
def digits32Go : Nat → Nat → List Nat
  | _, 0 => []
  | n, fuel + 1 => if n = 0 then [] else (n &&& mtMask) :: digits32Go (n >>> 32) fuel

/-- The 32-bit little-endian digits of a positive integer. -/
def digits32 (n : Nat) : List Nat := digits32Go n n

/-- `random.seed(n)` for a nonnegative int `n`: seed from the 32-bit
digits of `n` (a single zero word when `n = 0`), leaving the extraction
index exhausted so the first draw twists. -/
def mtFromSeed (n : Nat) : MT :=
  let key := if n = 0 then [0] else digits32 n
  MT.mk (mtInitByArray key) 624

/-- `getrandbits(k)` for `1 ≤ k ≤ 32`: top `k` bits of one draw. -/
def mtGetrandbits (k : Nat) (s : MT) : Nat × MT :=
  let (r, s) := mtGenrand s
  (r >>> (32 - k), s)

/-- `int.bit_length`, with structural fuel (`n` itself suffices). -/
def bitLengthGo : Nat → Nat → Nat
  | _, 0 => 0
  | n, fuel + 1 => if n = 0 then 0 else bitLengthGo (n >>> 1) fuel + 1

/-- `int.bit_length`: number of bits needed to represent `n`. -/
def bitLength (n : Nat) : Nat := bitLengthGo n n

/-- `Random._randbelow(n)`: rejection-sample `getrandbits(n.bit_length())`.
The rejection loop is given explicit fuel; with fuel 0 we return 0, a case
never reached in the concrete evaluations below (Python would keep
looping). -/
def mtRandbelow (n : Nat) : Nat → MT → Nat × MT
  | 0, s => (0, s)
  | fuel + 1, s =>
    let k := bitLength n
    let (r, s') := mtGetrandbits k s
    if r < n then (r, s') else mtRandbelow n fuel s'

/-- Swap two positions of a list (no-op when either is out of range). -/
def swapList {α : Type} (xs : List α) (i j : Nat) : List α :=
  match xs.get? i, xs.get? j with
  | some a, some b => (xs.set i b).set j a
  | _, _ => xs

/-- The Fisher-Yates walk of `random.shuffle`:
`for i in reversed(range(1, len(x))): j = randbelow(i+1); swap x[i] x[j]`. -/
def mtShuffleGo {α : Type} : MT → List α → Nat → List α × MT
  | s, xs, 0 => (xs, s)
  | s, xs, i + 1 =>
    let (j, s) := mtRandbelow (i + 2) 1000000 s
    mtShuffleGo s (swapList xs (i + 1) j) i

/-- `random.shuffle(xs)` in generator state `s`. -/
def mtShuffle {α : Type} (s : MT) (xs : List α) : List α × MT :=
  mtShuffleGo s xs (xs.length - 1)

/-! ## ChunkPlanner: `AudioBatchData.prepare`, lines 100-129

`prepare` saves the ambient generator state, seeds with the fixed constant
767543, shuffles the catalog in place, restores the ambient state, probes
all sequence lengths, and greedily accumulates them into packages. -/

/-- The planner's loop state: packages emitted so far, total size counted,
start of the open package and its accumulated size. -/
structure PlanState where
  packageIndex : List (Nat × Nat)
  totSize : Nat
  start : Nat
  packageSize : Nat
deriving Repr, DecidableEq

/-- The `for index, length in enumerate(allLength)` loop of `prepare`:
accumulate, and flush `[start, index)` whenever the running sum exceeds
`maxSize`. `k` is the current value of `index`. -/
def planLoop (maxSize : Nat) : PlanState → Nat → List Nat → PlanState
  | s, _, [] => s
  | s, k, l :: ls =>
    let ps := s.packageSize + l
    if maxSize < ps then
      planLoop maxSize (PlanState.mk (s.packageIndex ++ [(s.start, k)]) (s.totSize + ps) k 0) (k + 1) ls
    else
      planLoop maxSize (PlanState.mk s.packageIndex s.totSize s.start ps) (k + 1) ls

/-- Lines 111-122 of `prepare`: the package scan over the probed lengths,
emitting a final package exactly when a positive accumulation remains. -/
def prepare_plan (maxSize : Nat) (lengths : List Nat) : List (Nat × Nat) × Nat :=
  let s := planLoop maxSize (PlanState.mk [] 0 0 0) 0 lengths
  if 0 < s.packageSize then
    (s.packageIndex ++ [(s.start, lengths.length)], s.totSize + s.packageSize)
  else
    (s.packageIndex, s.totSize)

/-- `ranges` is a contiguous, in-order, gap-free chain of nonempty
half-open ranges running from `lo` to `hi`: the partition predicate of the
spec ("every index lies in exactly one package, no package empty"). -/
def partitionB (lo : Nat) : List (Nat × Nat) → Nat → Bool
  | [], hi => lo == hi
  | (a, b) :: rest, hi => a == lo && lo < b && partitionB b rest hi

/-- The persistent loader state touched by `prepare` and `loadNextPack`:
the (shuffled) catalog, the package ranges, the counted total size, and the
current/next package cursors (`currentPack` is initialised to -1). -/
structure DState (α : Type) where
  seqNames : List α
  packageIndex : List (Nat × Nat)
  totSize : Nat
  currentPack : Int
  nextPack : Nat
deriving Repr, DecidableEq

/-- Lines 101-105 of `prepare`: save the ambient generator state, seed with
the fixed constant 767543, shuffle the catalog with the seeded generator,
then restore the saved ambient state.  The generator is abstract: any state
type `G` with a seeding function and a shuffle that threads the state. -/
def prepareShuffleEffect {G α : Type} (seedFn : Nat → G)
    (shuffleFn : G → List α → List α × G) (g : G) (seqNames : List α) :
    List α × G :=
  let randomstate := g
  let g1 := seedFn 767543
  let shuffled := shuffleFn g1 seqNames
  let g2 := randomstate
  (shuffled.1, g2)

/-- The whole of `prepare` (lines 100-129): the seeded, state-isolated
shuffle followed by the package scan over the probed lengths
(`lengthOf` models the `extractLength` metadata probe), resetting the
package cursors. -/
def prepareFull {G α : Type} (seedFn : Nat → G)
    (shuffleFn : G → List α → List α × G) (lengthOf : α → Nat)
    (maxSize : Nat) (g : G) (seqNames : List α) : DState α × G :=
  let (shuffled, g') := prepareShuffleEffect seedFn shuffleFn g seqNames
  let (pkgs, tot) := prepare_plan maxSize (shuffled.map lengthOf)
  (DState.mk shuffled pkgs tot (-1) 0, g')

/-- `prepare` with the generator instantiated to the real CPython Mersenne
Twister (the ambient state passed in is irrelevant to the result, which is
the content of claim C5; any value serves). -/
def prepareMT {α : Type} (lengthOf : α → Nat) (maxSize : Nat)
    (seqNames : List α) : DState α :=
  (prepareFull mtFromSeed mtShuffle lengthOf maxSize (mtFromSeed 0) seqNames).1

/-- Lines 145-150 of `loadNextPack`: compute the wrapped next-package
index, read that package's range, re-run `prepare` when wrapping past the
last package, and return the slice of the catalog submitted to the
asynchronous load (`self.seqNames[seqStart:seqEnd]`).  Note the range is
read from the package list *before* the conditional replanning. -/
def loadNextPackIssue {α : Type} (lengthOf : α → Nat) (maxSize : Nat)
    (st : DState α) : DState α × List α :=
  let nextPack : Nat := ((st.currentPack + 1) % (st.packageIndex.length : Int)).toNat
  let r := st.packageIndex.getD nextPack (0, 0)
  let st1 : DState α := DState.mk st.seqNames st.packageIndex st.totSize st.currentPack nextPack
  let st2 := if nextPack = 0 ∧ 1 < st1.packageIndex.length
    then prepareMT lengthOf maxSize st1.seqNames
    else st1
  (st2, (st2.seqNames.drop r.1).take (r.2 - r.1))

/-! ## Segment search: `AudioBatchData.binary_search_max_less`, lines 211-224

The source recurses on slices `a[:mid]` / `a[mid:]`, carrying the absolute
offset `i` of the current slice.  The recursion is phrased with structural
fuel so that it evaluates by kernel reduction; `a.length` bounds the
recursion depth since every recursive call strictly shrinks the slice. -/

/-- The body of `binary_search_max_less`, with structural fuel. -/
def bsmlGo : Nat → List Nat → Nat → Nat → Nat
  | 0, _, _, i => i
  | fuel + 1, a, tgt, i =>
    if a.length ≤ 1 then i
    else
      let mid := a.length / 2
      let v := a.getD mid 0
      if tgt < v then bsmlGo fuel (a.take mid) tgt i
      else if v < tgt then bsmlGo fuel (a.drop mid) tgt (i + mid)
      else i + mid

/-- `binary_search_max_less(a, tgt, i=0)`.  The Python guard is
`len(a) == 1`; an empty list raises in Python and is returned unchanged
here (all uses have nonempty `a`). -/
def binary_search_max_less (a : List Nat) (tgt : Nat) (i : Nat := 0) : Nat :=
  bsmlGo a.length a tgt i

/-! ## PackageLoader: `AudioBatchData.parseNextDataBlock`, lines 152-194

Loaded items `(speaker, seqName, seq)` are sorted by `(speaker, seqName)`,
filtered against the configured label tracks, and folded into the buffer
and its offset arrays.  Python exceptions (`ValueError` for an
out-of-registry speaker, `IndexError` past the registry end,
`RuntimeError` from `torch.cat` on an empty list) become `none`. -/

/-- Sequence names (file stems in Python) are modelled as an abstract
totally ordered id space: the loader only compares names (inside the sort
key) and looks them up in the label tracks, so of the lexicographic string
order only totality and decidability matter. -/
abbrev SeqName : Type := Nat

/-- One decoded sequence as delivered by `loadFile`: the speaker id, the
sequence name (file stem), and the mono waveform (samples as integers;
only lengths and identity of samples matter to the loader). -/
structure Item where
  speaker : Nat
  seqName : SeqName
  seq : List Int
deriving Repr, DecidableEq

/-- The sort key order `(speaker, seqName)` used by
`self.nextData.sort(key=lambda x: (x[0], x[1]))`. -/
def itemLE (a b : Item) : Bool :=
  decide (a.speaker < b.speaker ∨ (a.speaker = b.speaker ∧ a.seqName ≤ b.seqName))

/-- A label track: the mapping from sequence name to its flat label list
(the `"step"` size is carried separately, as in the Python attributes). -/
def LabelDict : Type := List (SeqName × List Int)

/-- `seqName in labelsDict` for an optional track. -/
def dictHas (d : Option LabelDict) (name : SeqName) : Bool :=
  match d with
  | none => true
  | some m => (m.lookup name).isSome

/-- Lines 169-171: an item is kept unless a configured phone or word track
is missing its sequence name. -/
def keepItem (phoneDict wordDict : Option LabelDict) (name : SeqName) : Bool :=
  dictHas phoneDict name && dictHas wordDict name

/-- The labels of `name` in a track (defined only when present). -/
def dictLabels (d : Option LabelDict) (name : SeqName) : List Int :=
  match d with
  | none => []
  | some m => (m.lookup name).getD []

/-- Lines 182-185: when a phone track is active the waveform is truncated
to `len(labels) * phoneSize` samples; otherwise it is kept whole. -/
def truncSeq (phoneDict : Option LabelDict) (phoneSize : Nat) (it : Item) : List Int :=
  match phoneDict with
  | none => it.seq
  | some m => it.seq.take (((m.lookup it.seqName).getD []).length * phoneSize)

/-- Stable insertion of an item into a list sorted by `(speaker, seqName)`:
the new item goes before the first element it compares `≤` to.  Together
with the right-to-left build of `sortItems` this reproduces the stable
ascending sort `self.nextData.sort(key=...)` of line 163. -/
def insertItem (a : Item) : List Item → List Item
  | [] => [a]
  | b :: rest => if itemLE a b then a :: b :: rest else b :: insertItem a rest

/-- The sort of line 163. -/
def sortItems : List Item → List Item
  | [] => []
  | a :: rest => insertItem a (sortItems rest)

/-- The loop state of `parseNextDataBlock`: the boundary arrays under
construction, the flat label tracks, the cumulative sample count, the
speaker-registry cursor, and the retained waveforms. -/
structure ParseState where
  speakerLabel : List Nat
  seqLabel : List Nat
  phoneLabels : List Int
  wordLabels : List Int
  speakerSize : Nat
  indexSpeaker : Nat
  tmpData : List (List Int)
deriving Repr, DecidableEq

/-- Lines 173-175: `while self.speakers[indexSpeaker] < speaker` advance
the cursor, appending the current cumulative count as a new speaker
boundary each step.  `self.speakers = list(range(nSpeakers))`, so the
registry entry at `i` is `i` itself; running past the registry end is an
`IndexError` (`none`). -/
def speakerWhileGo (nSpeakers speaker speakerSize : Nat) : Nat → Nat → List Nat → Option (Nat × List Nat)
  | 0, _, _ => none
  | fuel + 1, indexSpeaker, acc =>
    if indexSpeaker < nSpeakers then
      if indexSpeaker < speaker then
        speakerWhileGo nSpeakers speaker speakerSize fuel (indexSpeaker + 1) (acc ++ [speakerSize])
      else some (indexSpeaker, acc)
    else none

/-- The while loop, with structural fuel.  `speaker + 1 - indexSpeaker`
steps always suffice; when the cursor already sits past `speaker` the fuel
is zero and the result `none`, which agrees with Python, where the
`ValueError` of line 177 fires right after the loop in that situation. -/
def speakerWhile (nSpeakers speaker indexSpeaker speakerSize : Nat)
    (acc : List Nat) : Option (Nat × List Nat) :=
  speakerWhileGo nSpeakers speaker speakerSize (speaker + 1 - indexSpeaker) indexSpeaker acc

/-- Lines 166-191: the per-item body of the parse loop. -/
def parseStep (nSpeakers : Nat) (phoneDict wordDict : Option LabelDict)
    (phoneSize : Nat) (st : ParseState) (it : Item) : Option ParseState :=
  if ¬ keepItem phoneDict wordDict it.seqName then some st
  else
    match speakerWhile nSpeakers it.speaker st.indexSpeaker st.speakerSize st.speakerLabel with
    | none => none
    | some (indexSpeaker, speakerLabel) =>
      -- line 176: `if self.speakers[indexSpeaker] != speaker: raise ValueError`
      if indexSpeaker ≠ it.speaker then none
      else
        let wordLabels := st.wordLabels ++
          (match wordDict with | none => [] | some _ => dictLabels wordDict it.seqName)
        let phoneLabels := st.phoneLabels ++
          (match phoneDict with | none => [] | some _ => dictLabels phoneDict it.seqName)
        let seq := truncSeq phoneDict phoneSize it
        let sizeSeq := seq.length
        some (ParseState.mk speakerLabel
          (st.seqLabel ++ [st.seqLabel.getLastD 0 + sizeSeq])
          phoneLabels wordLabels
          (st.speakerSize + sizeSeq) indexSpeaker
          (st.tmpData ++ [seq]))

/-- The `for speaker, seqName, seq in self.nextData` loop. -/
def parseLoop (nSpeakers : Nat) (phoneDict wordDict : Option LabelDict)
    (phoneSize : Nat) : ParseState → List Item → Option ParseState
  | st, [] => some st
  | st, it :: rest =>
    match parseStep nSpeakers phoneDict wordDict phoneSize st it with
    | none => none
    | some st2 => parseLoop nSpeakers phoneDict wordDict phoneSize st2 rest

/-- `torch.cat(tensors, dim=0)`: concatenation, which raises
(`RuntimeError: expected a non-empty list of Tensors`) on an empty list. -/
def torch_cat (ts : List (List Int)) : Option (List Int) :=
  match ts with
  | [] => none
  | _ => some ts.flatten

/-- The parsed buffer: the two offset arrays, the flat label tracks and
the concatenated audio data. -/
structure ParseOut where
  speakerLabel : List Nat
  seqLabel : List Nat
  phoneLabels : List Int
  wordLabels : List Int
  data : List Int
deriving Repr, DecidableEq

/-- The whole of `parseNextDataBlock` (lines 152-194): sort, fold, close
the speaker boundaries with the total, and concatenate the buffer. -/
def parseNextDataBlock (nSpeakers : Nat) (phoneDict wordDict : Option LabelDict)
    (phoneSize : Nat) (nextData : List Item) : Option ParseOut :=
  let sorted := sortItems nextData
  match parseLoop nSpeakers phoneDict wordDict phoneSize
      (ParseState.mk [0] [0] [] [] 0 0 []) sorted with
  | none => none
  | some st =>
    match torch_cat st.tmpData with
    | none => none
    | some data =>
      some (ParseOut.mk (st.speakerLabel ++ [st.speakerSize]) st.seqLabel
        st.phoneLabels st.wordLabels data)

/-! ## Item fetch: `AudioBatchData.__getitem__` and its label lookups -/

/-- Position of the first element greater than `idx` (the generator inside
`getSpeakerLabel`, line 227); `none` models `StopIteration`. -/
def findFirstGreater (idx : Nat) : List Nat → Option Nat
  | [] => none
  | v :: rest => if idx < v then some 0 else (findFirstGreater idx rest).map (· + 1)

/-- `getSpeakerLabel(idx)` (lines 226-229): index of the speaker segment
containing flat index `idx`. -/
def getSpeakerLabel (speakerLabel : List Nat) (idx : Nat) : Option Nat :=
  (findFirstGreater idx speakerLabel).map (· - 1)

/-- `getPhonem(idx)` (lines 196-198). -/
def getPhonem (phoneLabels : List Int) (phoneSize phoneStep idx : Nat) : List Int :=
  let idPhone := idx / phoneSize
  (phoneLabels.drop idPhone).take (idPhone + phoneStep - idPhone)

/-- What `__getitem__` hands back, together with whether the out-of-range
warning was printed on the way. -/
structure FetchResult where
  printed : Bool
  outData : List Int
  speaker : Nat
  seqIdx : Nat
  phone : Option (List Int)
  word : Option (List Int)
deriving Repr, DecidableEq

/-- `__getitem__(idx)` (lines 235-259) for a nonnegative `idx`.  The guard
`idx < 0 or idx >= len(self.data) - self.sizeWindow - 1` only *prints* the
index; the slice and label lookups then proceed regardless.  The lookup of
the speaker label raises `StopIteration` when `idx` is at or past the last
boundary (`none` here); otherwise a full result is returned. -/
def getItem (data : List Int) (sizeWindow : Nat) (speakerLabel seqLabel : List Nat)
    (phoneLabels : List Int) (phoneSize phoneStep : Nat)
    (wordLabels : List Int) (wordSize wordStep : Nat) (idx : Nat) :
    Option FetchResult :=
  let printed : Bool := decide (data.length - sizeWindow - 1 ≤ idx)
  let outData := (data.drop idx).take (sizeWindow + idx - idx)
  match getSpeakerLabel speakerLabel idx with
  | none => none
  | some spk =>
    let seqIdx := binary_search_max_less seqLabel idx
    some (FetchResult.mk printed outData spk seqIdx
      (if 0 < phoneSize then some (getPhonem phoneLabels phoneSize phoneStep idx) else none)
      (if 0 < wordSize then some (getPhonem wordLabels wordSize wordStep idx) else none))

/-! ## Samplers -/

/-- `SequentialSampler.__init__` (lines 397-408): the step count (one less
when a phase offset is active; Python's `-1` on a zero count makes
`__len__` negative and the iteration empty, which truncated subtraction
matches) and the `batchSize` evenly spaced region starts. -/
structure SequentialSampler where
  len : Nat
  sizeWindow : Nat
  offset : Nat
  startBatches : List Nat
  batchSize : Nat
deriving Repr, DecidableEq

/-- Build the sequential sampler from the buffer size. -/
def SequentialSampler.build (dataSize sizeWindow offset batchSize : Nat) :
    SequentialSampler :=
  let l := (dataSize / sizeWindow) / batchSize
  SequentialSampler.mk (if 0 < offset then l - 1 else l) sizeWindow offset
    ((List.range batchSize).map (fun x => x * (dataSize / batchSize))) batchSize

/-- `SequentialSampler.__iter__` (lines 410-413): for each step `idx`, one
window start per region. -/
def SequentialSampler.batches (s : SequentialSampler) : List (List Nat) :=
  (List.range s.len).map (fun idx =>
    s.startBatches.map (fun start => s.offset + s.sizeWindow * idx + start))

/-- The chunking loop of `SameSpeakerSampler.__init__` (lines 450-455):
slices `[indexStart, min(size, indexStart + batchSize))` of one group's
permutation, walked with structural fuel (`size` bounds the step count
when `batchSize > 0`; Python loops forever on `batchSize = 0`). -/
def sliceChunks (batchSize size : Nat) (rp : List Nat) : Nat → Nat → List (List Nat)
  | _, 0 => []
  | s, fuel + 1 =>
    if s < size then
      ((rp.drop s).take (min size (s + batchSize) - s)) :: sliceChunks batchSize size rp (s + batchSize) fuel
    else []

/-- `SameSpeakerSampler.getIndex` (lines 460-462). -/
def ssGetIndex (offset sizeWindow : Nat) (samplingIntervals : List Nat)
    (x iInterval : Nat) : Nat :=
  offset + x * sizeWindow + samplingIntervals.getD iInterval 0

/-- Lines 435-441: the per-group usable-window counts
`(samplingIntervals[i+1] - samplingIntervals[i]) // sizeWindow`, each
reduced by one (floored at zero) when the phase offset is positive. -/
def ssSizeSamplers (samplingIntervals : List Nat) (sizeWindow offset : Nat) :
    List Nat :=
  let nWindows := samplingIntervals.length - 1
  let base := (List.range nWindows).map (fun i =>
    (samplingIntervals.getD (i + 1) 0 - samplingIntervals.getD i 0) / sizeWindow)
  if 0 < offset then base.map (fun x => x - 1) else base

/-- Lines 443-455: the batch-building body of the constructor. -/
def sameSpeakerBatchesCore (randperm : Nat → Nat → List Nat)
    (batchSize : Nat) (samplingIntervals : List Nat) (sizeWindow offset : Nat) :
    List (List Nat) :=
  let sizeSamplers := ssSizeSamplers samplingIntervals sizeWindow offset
  let order := ((List.range (samplingIntervals.length - 1)).filter
      (fun i => 0 < sizeSamplers.getD i 0)).map
    (fun i => (i, randperm i (sizeSamplers.getD i 0)))
  order.flatMap (fun p =>
    (sliceChunks batchSize (sizeSamplers.getD p.1 0) p.2 0 (sizeSamplers.getD p.1 0)).map
      (fun c => c.map (fun x => ssGetIndex offset sizeWindow samplingIntervals x p.1)))

/-- `SameSpeakerSampler.__init__` (lines 419-455), parameterised by the
external `torch.randperm` draws: `randperm i v` is the permutation drawn
for group `i` of usable-window count `v` (the real torch draw is some list
of the numbers below `v`).  Returns `none` for the constructor's
`AttributeError` when the offsets do not start at 0 (or are empty, an
`IndexError` in Python).  Group sizes use truncated subtraction: the
offset arrays the loader passes are nondecreasing, where Python's signed
floor division agrees with it on every group actually used (`val > 0`). -/
def sameSpeakerBatches (randperm : Nat → Nat → List Nat)
    (batchSize : Nat) (samplingIntervals : List Nat) (sizeWindow offset : Nat) :
    Option (List (List Nat)) :=
  if samplingIntervals.getD 0 1 ≠ 0 then none
  else some (sameSpeakerBatchesCore randperm batchSize samplingIntervals sizeWindow offset)

/-! ## Claim C1: the planner's packages partition the catalog -/

/-- A partition of `[0, s)` extends by the nonempty package `[s, k)` to a
partition of `[0, k)`. -/
lemma partitionB_append {s k : Nat} (lo : Nat) (ps : List (Nat × Nat))
    (h : partitionB lo ps s = true) (hsk : s < k) :
    partitionB lo (ps ++ [(s, k)]) k = true := by
  induction ps generalizing lo with
  | nil =>
    simp only [partitionB, beq_iff_eq] at h
    subst h
    simp [partitionB, hsk]
  | cons p rest ih =>
    obtain ⟨a, b⟩ := p
    simp only [partitionB, Bool.and_eq_true, beq_iff_eq, decide_eq_true_eq] at h
    simp only [List.cons_append, partitionB, Bool.and_eq_true, beq_iff_eq, decide_eq_true_eq]
    exact ⟨⟨h.1.1, h.1.2⟩, ih b h.2⟩

/-- Loop invariant for the package scan: the emitted packages always
partition `[0, start)`, and the open accumulator starts strictly before
the current index except in the untouched initial state. -/
lemma planLoop_inv (maxSize : Nat) (ls : List Nat) :
    ∀ (k : Nat) (s : PlanState),
      partitionB 0 s.packageIndex s.start = true →
      (s.start < k ∨ (s.start = k ∧ s.packageSize = 0 ∧ k = 0)) →
      (k = 0 → ls.headD 0 ≤ maxSize) →
      partitionB 0 (planLoop maxSize s k ls).packageIndex (planLoop maxSize s k ls).start = true ∧
      ((planLoop maxSize s k ls).start < k + ls.length ∨
        ((planLoop maxSize s k ls).start = k + ls.length ∧
          (planLoop maxSize s k ls).packageSize = 0 ∧ k + ls.length = 0)) := by
  induction ls with
  | nil => intro k s h1 h2 _; exact ⟨h1, by simpa using h2⟩
  | cons l rest ih =>
    intro k s h1 h2 hfirst
    have harr : k + (l :: rest).length = k + 1 + rest.length := by
      simp only [List.length_cons]; omega
    simp only [planLoop]
    split
    · -- flush: the closed package [start, k) is nonempty
      rename_i hflush
      have hsk : s.start < k := by
        rcases h2 with h2 | ⟨hs, hz, hk⟩
        · exact h2
        · exfalso
          have := hfirst hk
          simp only [List.headD_cons] at this
          omega
      have h1' : partitionB 0 (s.packageIndex ++ [(s.start, k)]) k = true :=
        partitionB_append 0 s.packageIndex h1 hsk
      have hrec := ih (k + 1)
        (PlanState.mk (s.packageIndex ++ [(s.start, k)]) (s.totSize + (s.packageSize + l)) k 0)
        h1' (Or.inl (show k < k + 1 by omega)) (by intro h; omega)
      rw [harr]
      exact hrec
    · -- no flush: state advances with the same open package
      have hlt : s.start < k + 1 := by rcases h2 with h2 | ⟨hs, _, _⟩ <;> omega
      have hrec := ih (k + 1)
        (PlanState.mk s.packageIndex s.totSize s.start (s.packageSize + l))
        h1 (Or.inl hlt) (by intro h; omega)
      rw [harr]
      exact hrec

/-- Claim C1, counterexample: with probed lengths `[100, 250]` and
`maxSize = 300` the last sequence's length triggers a flush, the residual
accumulator is reset to zero, and no final package is emitted: the plan is
`[(0, 1)]`, which leaves index 1 in no package — not a partition of
`[0, 2)`. -/
theorem C1_counterexample :
    (prepare_plan 300 [100, 250]).1 = [(0, 1)] ∧
    partitionB 0 (prepare_plan 300 [100, 250]).1 2 = false := by
  exact ⟨by decide, by decide⟩

/-- Claim C1 (amended): the package ranges computed by the planner form a
partition of the catalog index range `[0, n)` — contiguous, in order, no
package empty, every index (and a trailing partial accumulation) covered —
provided the first probed length does not exceed `maxSize` (otherwise the
very first flush emits an empty package) and a positive partial
accumulation remains after the scan (otherwise a flush at the last index
leaves the final sequence in no package). -/
theorem C1_theorem (maxSize : Nat) (lengths : List Nat)
    (hfirst : lengths.headD 0 ≤ maxSize)
    (hres : lengths = [] ∨
      0 < (planLoop maxSize (PlanState.mk [] 0 0 0) 0 lengths).packageSize) :
    partitionB 0 (prepare_plan maxSize lengths).1 lengths.length = true := by
  rcases hres with hnil | hpos
  · subst hnil; rfl
  · have hinv := planLoop_inv maxSize lengths 0 (PlanState.mk [] 0 0 0)
      (by decide) (by right; exact ⟨rfl, rfl, rfl⟩) (fun _ => hfirst)
    set r := planLoop maxSize (PlanState.mk [] 0 0 0) 0 lengths with hr
    have hlt : r.start < lengths.length := by
      rcases hinv.2 with h | ⟨_, hz, _⟩
      · simpa using h
      · omega
    have : prepare_plan maxSize lengths =
        (r.packageIndex ++ [(r.start, lengths.length)], r.totSize + r.packageSize) := by
      simp only [prepare_plan, ← hr]
      rw [if_pos hpos]
    rw [this]
    exact partitionB_append 0 r.packageIndex (by simpa using hinv.1) hlt

/-- Claim C1, witness: the spec's own concrete case, lengths
`[100, 150, 90, 200, 60]` with `maxSize = 300`. -/
theorem C1_witness :
    ([100, 150, 90, 200, 60] : List Nat).headD 0 ≤ 300 ∧
    0 < (planLoop 300 (PlanState.mk [] 0 0 0) 0 [100, 150, 90, 200, 60]).packageSize ∧
    partitionB 0 (prepare_plan 300 [100, 150, 90, 200, 60]).1 5 = true :=
  ⟨by decide, by decide,
    C1_theorem 300 [100, 150, 90, 200, 60] (by decide) (Or.inr (by decide))⟩

/-! ## Claims C5 and C10: determinism and state isolation of the planner -/

/-- Claim C5: planning is deterministic across runs — the plan computed by
`prepare` (both the shuffled catalog order and the package ranges) does not
depend on the ambient random generator state, for any generator
implementation; two executions starting from the same catalog therefore
produce identical plans, because the shuffle reads only the constant-seeded
generator. -/
theorem C5_theorem {G α : Type} (seedFn : Nat → G)
    (shuffleFn : G → List α → List α × G) (lengthOf : α → Nat)
    (maxSize : Nat) (g g' : G) (seqNames : List α) :
    (prepareFull seedFn shuffleFn lengthOf maxSize g seqNames).1 =
    (prepareFull seedFn shuffleFn lengthOf maxSize g' seqNames).1 := rfl

/-- Claim C10: `prepare` restores the ambient generator state it saved:
for every prior state `g`, the global random state after `prepare` returns
is exactly `g`, for any generator implementation. -/
theorem C10_theorem {G α : Type} (seedFn : Nat → G)
    (shuffleFn : G → List α → List α × G) (lengthOf : α → Nat)
    (maxSize : Nat) (g : G) (seqNames : List α) :
    (prepareFull seedFn shuffleFn lengthOf maxSize g seqNames).2 = g := rfl

/-! ## Claim C7: the sequential (strided) sampler -/

/-- Claim C7, counterexample: with `bufferSize = 1000`, `sizeWindow = 100`,
`batchSize = 2` and phase offset 50, the sampler yields 4 batches, not
`(bufferSize // sizeWindow) // B = 5`: the constructor subtracts one from
the step count whenever the offset is positive. -/
theorem C7_counterexample :
    (SequentialSampler.build 1000 100 50 2).batches.length = 4 ∧
    ¬ (SequentialSampler.build 1000 100 50 2).batches.length = (1000 / 100) / 2 := by
  exact ⟨by decide, by decide⟩

/-- Claim C7 (amended): the sequential sampler yields exactly
`(bufferSize // sizeWindow) // B` batches when the phase offset is zero and
one fewer when it is positive, the batch at step `idx` being exactly
`[offset + sizeWindow*idx + b*(bufferSize // B) for b in 0..B-1]`. -/
theorem C7_theorem (dataSize sizeWindow offset batchSize : Nat)
    (hw : 0 < sizeWindow) (hb : 0 < batchSize) :
    (SequentialSampler.build dataSize sizeWindow offset batchSize).batches =
      (List.range ((dataSize / sizeWindow) / batchSize - (if 0 < offset then 1 else 0))).map
        (fun idx => (List.range batchSize).map
          (fun b => offset + sizeWindow * idx + b * (dataSize / batchSize))) ∧
    (SequentialSampler.build dataSize sizeWindow offset batchSize).batches.length =
      (dataSize / sizeWindow) / batchSize - (if 0 < offset then 1 else 0) := by
  have hlen : (if 0 < offset then dataSize / sizeWindow / batchSize - 1
        else dataSize / sizeWindow / batchSize) =
      dataSize / sizeWindow / batchSize - (if 0 < offset then 1 else 0) := by
    split <;> simp
  constructor
  · simp only [SequentialSampler.batches, SequentialSampler.build, List.map_map, hlen]
    rfl
  · simp only [SequentialSampler.batches, SequentialSampler.build, List.length_map,
      List.length_range, hlen]

/-- Claim C7, witness: the counterexample's parameters under the amended
count. -/
theorem C7_witness :
    0 < 100 ∧ 0 < 2 ∧
    (SequentialSampler.build 1000 100 50 2).batches =
      (List.range ((1000 / 100) / 2 - (if 0 < (50 : Nat) then 1 else 0))).map
        (fun idx => (List.range 2).map
          (fun b => 50 + 100 * idx + b * (1000 / 2))) :=
  ⟨by decide, by decide, (C7_theorem 1000 100 50 2 (by decide) (by decide)).1⟩

/-! ## Claim C8: out-of-bounds item fetch is only printed, not raised -/

/-- Claim C8: the code merely prints an out-of-range index and proceeds.
At `bufferLen = 10`, `sizeWindow = 3`, the precondition requires
`idx ≤ 6`, yet fetching `idx = 8` returns a normal `(window, labels)`
result (with a short window) instead of raising — the claim's required
bounds error never happens, which the spec itself records as a latent
defect of the reference behaviour. -/
theorem C8_theorem :
    getItem [0, 1, 2, 3, 4, 5, 6, 7, 8, 9] 3 [0, 10] [0, 10] [] 0 0 [] 0 0 8 =
      some (FetchResult.mk true [8, 9] 0 0 none none) := by decide

/-! ## Claim C3: replanning at the epoch wrap -/

set_option maxRecDepth 100000 in
/-- Claim C3, counterexample: catalog `[100, 250, 100]` (elements are their
own probed lengths), `maxSize = 300`.  Construction-time planning shuffles
the catalog to `[250, 100, 100]` and chunks it as `[(0, 1), (1, 3)]`; after
consuming package 1 (`currentPack = 1`), the wrap re-runs the planner,
whose fresh shuffle `[100, 100, 250]` chunks as `[(0, 2)]` — but the load
is issued over the range `(0, 1)` read from the stale plan, so the
submitted set `[100]` is not the fresh plan's first package
`[100, 100]`. -/
theorem C3_counterexample :
    prepareMT (fun n => n) 300 [100, 250, 100] =
      DState.mk [250, 100, 100] [(0, 1), (1, 3)] 450 (-1) 0 ∧
    loadNextPackIssue (fun n => n) 300 (DState.mk [250, 100, 100] [(0, 1), (1, 3)] 450 1 0) =
      (DState.mk [100, 100, 250] [(0, 2)] 450 (-1) 0, [100]) ∧
    ([100] : List Nat) ≠
      ([100, 100, 250] : List Nat).take ((([(0, 2)] : List (Nat × Nat)).getD 0 (0, 0)).2) := by
  refine ⟨by decide, by decide, by decide⟩

/-- Claim C3 (amended): whenever `loadNextPack` computes a next package
index of 0 while more than one package exists, the planner *is* re-run
before the asynchronous load is issued, but the set of sequences submitted
to that load is the freshly shuffled catalog sliced by the *stale* plan's
first-package range (read before replanning) — it equals the fresh plan's
first package only when the two ranges happen to coincide. -/
theorem C3_theorem {α : Type} (lengthOf : α → Nat) (maxSize : Nat)
    (st : DState α)
    (hwrap : ((st.currentPack + 1) % (st.packageIndex.length : Int)).toNat = 0)
    (hmulti : 1 < st.packageIndex.length) :
    (loadNextPackIssue lengthOf maxSize st).1 =
      prepareMT lengthOf maxSize st.seqNames ∧
    (loadNextPackIssue lengthOf maxSize st).2 =
      ((prepareMT lengthOf maxSize st.seqNames).seqNames.drop
          (st.packageIndex.getD 0 (0, 0)).1).take
        ((st.packageIndex.getD 0 (0, 0)).2 - (st.packageIndex.getD 0 (0, 0)).1) := by
  simp only [loadNextPackIssue, hwrap, hmulti, and_true, if_pos, true_and]

/-- Claim C3, witness: a two-package state about to wrap
(`currentPack = 1`). -/
theorem C3_witness :
    ((((DState.mk [9, 9] [(0, 1), (1, 2)] 18 1 0 : DState Nat).currentPack + 1) %
        ((DState.mk [9, 9] [(0, 1), (1, 2)] 18 1 0 : DState Nat).packageIndex.length : Int)).toNat
      = 0) ∧
    1 < (DState.mk [9, 9] [(0, 1), (1, 2)] 18 1 0 : DState Nat).packageIndex.length ∧
    (loadNextPackIssue (fun n => n) 5 (DState.mk [9, 9] [(0, 1), (1, 2)] 18 1 0)).2 =
      ((prepareMT (fun n => n) 5 [9, 9]).seqNames.drop 0).take (1 - 0) :=
  ⟨by decide, by decide,
    (C3_theorem (fun n => n) 5 (DState.mk [9, 9] [(0, 1), (1, 2)] 18 1 0)
      (by decide) (by decide)).2⟩

/-! ## Claim C4: correctness of `binary_search_max_less` -/

/-- `getD` through `take`. -/
lemma getD_take_eq (a : List Nat) (m j : Nat) (h : j < m) :
    (a.take m).getD j 0 = a.getD j 0 := by
  simp [List.getD_eq_getElem?_getD, List.getElem?_take, h]

/-- `getD` through `drop`. -/
lemma getD_drop_eq (a : List Nat) (m j : Nat) :
    (a.drop m).getD j 0 = a.getD (m + j) 0 := by
  simp [List.getD_eq_getElem?_getD, List.getElem?_drop]

/-- Strictly ascending lists are strictly monotone position-wise. -/
lemma pairwise_lt_getD {a : List Nat} (h : a.Pairwise (· < ·)) {i j : Nat}
    (hij : i < j) (hj : j < a.length) : a.getD i 0 < a.getD j 0 := by
  have hi : i < a.length := lt_trans hij hj
  rw [List.getD_eq_getElem a 0 hi, List.getD_eq_getElem a 0 hj]
  exact List.pairwise_iff_getElem.mp h i j hi hj hij

/-- Strictly ascending lists are monotone position-wise. -/
lemma pairwise_le_getD {a : List Nat} (h : a.Pairwise (· < ·)) {i j : Nat}
    (hij : i ≤ j) (hj : j < a.length) : a.getD i 0 ≤ a.getD j 0 := by
  rcases Nat.eq_or_lt_of_le hij with heq | hlt
  · rw [heq]
  · exact Nat.le_of_lt (pairwise_lt_getD h hlt hj)

/-- The carried offset `i` only shifts the result of the search. -/
lemma bsmlGo_shift (fuel : Nat) : ∀ (a : List Nat) (tgt i : Nat),
    bsmlGo fuel a tgt i = i + bsmlGo fuel a tgt 0 := by
  induction fuel with
  | zero => intro a tgt i; simp [bsmlGo]
  | succ n ih =>
    intro a tgt i
    by_cases h1 : a.length ≤ 1
    · simp [bsmlGo, h1]
    · by_cases h2 : tgt < a.getD (a.length / 2) 0
      · simp only [bsmlGo, if_neg h1, if_pos h2]
        exact ih _ _ _
      · by_cases h3 : a.getD (a.length / 2) 0 < tgt
        · simp only [bsmlGo, if_neg h1, if_neg h2, if_pos h3]
          rw [ih, ih (a.drop (a.length / 2)) tgt (0 + a.length / 2)]
          omega
        · simp only [bsmlGo, if_neg h1, if_neg h2, if_neg h3]
          omega

/-- The search result brackets the target: generalised bracketing lemma,
by induction on the fuel (which bounds the slice length). -/
lemma bsmlGo_spec (fuel : Nat) : ∀ (a : List Nat) (tgt : Nat),
    a.length ≤ fuel → a ≠ [] → a.Pairwise (· < ·) → a.getD 0 0 ≤ tgt →
    bsmlGo fuel a tgt 0 < a.length ∧
    a.getD (bsmlGo fuel a tgt 0) 0 ≤ tgt ∧
    (bsmlGo fuel a tgt 0 + 1 < a.length → tgt < a.getD (bsmlGo fuel a tgt 0 + 1) 0) := by
  induction fuel with
  | zero =>
    intro a tgt hle hne _ _
    exact absurd (List.length_eq_zero.mp (Nat.le_zero.mp hle)) hne
  | succ n ih =>
    intro a tgt hle hne hpw hlo
    have hpos : 0 < a.length := List.length_pos.mpr hne
    by_cases h1 : a.length ≤ 1
    · have hr : bsmlGo (n + 1) a tgt 0 = 0 := by simp [bsmlGo, h1]
      rw [hr]
      exact ⟨hpos, hlo, by omega⟩
    · have hmid1 : 1 ≤ a.length / 2 := by omega
      have hmidlt : a.length / 2 < a.length := by omega
      by_cases h2 : tgt < a.getD (a.length / 2) 0
      · -- left slice
        have hr : bsmlGo (n + 1) a tgt 0 = bsmlGo n (a.take (a.length / 2)) tgt 0 := by
          simp only [bsmlGo, if_neg h1, if_pos h2]
        have hlt : (a.take (a.length / 2)).length = a.length / 2 := by
          simp [List.length_take]; omega
        obtain ⟨r1, r2, r3⟩ := ih (a.take (a.length / 2)) tgt
          (by omega)
          (by intro hc; rw [hc] at hlt; simp at hlt; omega)
          (List.Pairwise.sublist (List.take_sublist _ _) hpw)
          (by rw [getD_take_eq _ _ _ (by omega)]; exact hlo)
        rw [hlt] at r1 r3
        rw [hr]
        refine ⟨by omega, ?_, ?_⟩
        · rw [getD_take_eq _ _ _ r1] at r2
          exact r2
        · intro _
          rcases Nat.lt_or_ge (bsmlGo n (a.take (a.length / 2)) tgt 0 + 1) (a.length / 2)
            with hc | hc
          · have := r3 hc
            rwa [getD_take_eq _ _ _ hc] at this
          · have heq : bsmlGo n (a.take (a.length / 2)) tgt 0 + 1 = a.length / 2 := by omega
            rw [heq]
            exact h2
      · by_cases h3 : a.getD (a.length / 2) 0 < tgt
        · -- right slice
          have hr : bsmlGo (n + 1) a tgt 0 =
              a.length / 2 + bsmlGo n (a.drop (a.length / 2)) tgt 0 := by
            simp only [bsmlGo, if_neg h1, if_neg h2, if_pos h3]
            rw [bsmlGo_shift]
            omega
          have hld : (a.drop (a.length / 2)).length = a.length - a.length / 2 := by
            simp [List.length_drop]
          obtain ⟨r1, r2, r3⟩ := ih (a.drop (a.length / 2)) tgt
            (by omega)
            (by intro hc; rw [hc] at hld; simp at hld; omega)
            (List.Pairwise.sublist (List.drop_sublist _ _) hpw)
            (by rw [getD_drop_eq]; simpa using Nat.le_of_lt h3)
          rw [hld] at r1 r3
          rw [hr]
          refine ⟨by omega, ?_, ?_⟩
          · rw [getD_drop_eq] at r2
            exact r2
          · intro hb
            have hc : bsmlGo n (a.drop (a.length / 2)) tgt 0 + 1 <
                a.length - a.length / 2 := by omega
            have := r3 hc
            rw [getD_drop_eq] at this
            have harr : a.length / 2 + (bsmlGo n (a.drop (a.length / 2)) tgt 0 + 1) =
                a.length / 2 + bsmlGo n (a.drop (a.length / 2)) tgt 0 + 1 := by omega
            rwa [harr] at this
        · -- exact hit
          have hv : a.getD (a.length / 2) 0 = tgt := by omega
          have hr : bsmlGo (n + 1) a tgt 0 = a.length / 2 := by
            simp only [bsmlGo, if_neg h1, if_neg h2, if_neg h3]
            omega
          rw [hr]
          exact ⟨hmidlt, Nat.le_of_eq hv, fun hb => hv ▸ pairwise_lt_getD hpw (by omega) hb⟩

/-- Claim C4: for every strictly ascending offsets array with at least two
elements and every query with `offsets[0] <= tgt < offsets[-1]`,
`binary_search_max_less` returns the unique index `i` with
`offsets[i] <= tgt < offsets[i+1]`. -/
theorem C4_theorem (a : List Nat) (tgt : Nat)
    (hsorted : a.Pairwise (· < ·)) (hlen : 2 ≤ a.length)
    (hlo : a.getD 0 0 ≤ tgt) (hhi : tgt < a.getD (a.length - 1) 0) :
    binary_search_max_less a tgt + 1 < a.length ∧
    a.getD (binary_search_max_less a tgt) 0 ≤ tgt ∧
    tgt < a.getD (binary_search_max_less a tgt + 1) 0 ∧
    ∀ j, a.getD j 0 ≤ tgt → tgt < a.getD (j + 1) 0 → j + 1 < a.length →
      j = binary_search_max_less a tgt := by
  have hne : a ≠ [] := by intro h; rw [h] at hlen; simp at hlen
  unfold binary_search_max_less
  obtain ⟨r1, r2, r3⟩ := bsmlGo_spec a.length a tgt le_rfl hne hsorted hlo
  have hrlt : bsmlGo a.length a tgt 0 + 1 < a.length := by
    by_contra hc
    have heq : bsmlGo a.length a tgt 0 = a.length - 1 := by omega
    rw [heq] at r2
    omega
  refine ⟨hrlt, r2, r3 hrlt, ?_⟩
  intro j hj1 hj2 hj3
  by_contra hne2
  rcases Nat.lt_or_ge j (bsmlGo a.length a tgt 0) with hlt | hge
  · have := pairwise_le_getD hsorted (show j + 1 ≤ bsmlGo a.length a tgt 0 by omega)
      (by omega)
    omega
  · have hgt : bsmlGo a.length a tgt 0 < j := by omega
    have := pairwise_le_getD hsorted
      (show bsmlGo a.length a tgt 0 + 1 ≤ j by omega) (by omega)
    have h4 := r3 hrlt
    omega

/-- Claim C4, witness: `offsets = [0, 5, 10]`, query 7. -/
theorem C4_witness :
    ([0, 5, 10] : List Nat).Pairwise (· < ·) ∧
    2 ≤ ([0, 5, 10] : List Nat).length ∧
    ([0, 5, 10] : List Nat).getD 0 0 ≤ 7 ∧
    7 < ([0, 5, 10] : List Nat).getD (([0, 5, 10] : List Nat).length - 1) 0 ∧
    (binary_search_max_less [0, 5, 10] 7 + 1 < ([0, 5, 10] : List Nat).length ∧
      ([0, 5, 10] : List Nat).getD (binary_search_max_less [0, 5, 10] 7) 0 ≤ 7 ∧
      7 < ([0, 5, 10] : List Nat).getD (binary_search_max_less [0, 5, 10] 7 + 1) 0 ∧
      ∀ j, ([0, 5, 10] : List Nat).getD j 0 ≤ 7 →
        7 < ([0, 5, 10] : List Nat).getD (j + 1) 0 →
        j + 1 < ([0, 5, 10] : List Nat).length →
        j = binary_search_max_less [0, 5, 10] 7) :=
  ⟨by decide, by decide, by decide, by decide,
    C4_theorem [0, 5, 10] 7 (by decide) (by decide) (by decide) (by decide)⟩

/-! ## Claim C6: grouped-sampler batches never mix groups -/

/-- A `≤`-chained list is monotone position-wise. -/
lemma chain'_le_getD {l : List Nat} (h : List.Chain' (· ≤ ·) l) :
    ∀ {i j : Nat}, i ≤ j → j < l.length → l.getD i 0 ≤ l.getD j 0 := by
  intro i j hij hj
  induction j with
  | zero =>
    have : i = 0 := by omega
    rw [this]
  | succ m ihm =>
    rcases Nat.eq_or_lt_of_le hij with heq | hlt
    · rw [heq]
    · have hm : i ≤ m := by omega
      have hmlen : m < l.length := by omega
      have hadj : l.getD m 0 ≤ l.getD (m + 1) 0 := by
        have hget := List.chain'_iff_get.mp h m (by omega)
        rw [List.getD_eq_getElem l 0 hmlen, List.getD_eq_getElem l 0 hj]
        simpa [List.get_eq_getElem] using hget
      exact Nat.le_trans (ihm hm hmlen) hadj

/-- The generator in `getSpeakerLabel` finds position `k + 1` whenever the
query sits in the `k`-th segment of a nondecreasing offsets array. -/
lemma findFirstGreater_bracket {l : List Nat} (hmono : List.Chain' (· ≤ ·) l)
    (idx : Nat) : ∀ k : Nat, k + 1 < l.length →
    l.getD k 0 ≤ idx → idx < l.getD (k + 1) 0 →
    findFirstGreater idx l = some (k + 1) := by
  induction l with
  | nil => intro k hk _ _; simp at hk
  | cons v rest ih =>
    intro k hk h1 h2
    match k with
    | 0 =>
      have hv : ¬ idx < v := by
        simp only [List.getD_cons_zero] at h1
        omega
      match rest, hk, h2 with
      | w :: rest', _, h2 =>
        have hw2 : idx < w := by simpa using h2
        simp [findFirstGreater, hv, hw2]
    | m + 1 =>
      have hv : ¬ idx < v := by
        have h0 : (v :: rest).getD 0 0 ≤ (v :: rest).getD (m + 1) 0 :=
          chain'_le_getD hmono (Nat.zero_le _) (Nat.lt_of_succ_lt hk)
        simp only [List.getD_cons_zero] at h0
        omega
      have hrec := ih (List.Chain'.tail hmono) m (by simpa using hk)
        (by simpa using h1) (by simpa using h2)
      simp [findFirstGreater, hv, hrec]

/-- Every element of every chunk produced by the chunking loop comes from
the permutation list. -/
lemma sliceChunks_mem (batchSize size : Nat) (rp : List Nat) :
    ∀ (fuel s : Nat) (c : List Nat), c ∈ sliceChunks batchSize size rp s fuel →
      ∀ x ∈ c, x ∈ rp := by
  intro fuel
  induction fuel with
  | zero => intro s c hc; simp [sliceChunks] at hc
  | succ n ih =>
    intro s c hc x hx
    by_cases hs : s < size
    · simp only [sliceChunks, if_pos hs, List.mem_cons] at hc
      rcases hc with hceq | hc
      · rw [hceq] at hx
        exact List.mem_of_mem_drop (List.mem_of_mem_take hx)
      · exact ih _ _ hc x hx
    · simp [sliceChunks, if_neg hs] at hc

/-- `getD` of a mapped range. -/
lemma rangeMap_getD (f : Nat → Nat) (n k d : Nat) (h : k < n) :
    ((List.range n).map f).getD k d = f k := by
  simp [List.getD_eq_getElem?_getD, List.getElem?_map, List.getElem?_range, h]

/-- The usable-window count of group `i`. -/
lemma ssSizeSamplers_getD (samplingIntervals : List Nat) (sizeWindow offset i : Nat)
    (hi : i < samplingIntervals.length - 1) :
    (ssSizeSamplers samplingIntervals sizeWindow offset).getD i 0 =
      (samplingIntervals.getD (i + 1) 0 - samplingIntervals.getD i 0) / sizeWindow -
        (if 0 < offset then 1 else 0) := by
  by_cases hof : 0 < offset
  · simp only [ssSizeSamplers, if_pos hof, List.map_map]
    rw [show ((fun x => x - 1) ∘ fun i =>
        (samplingIntervals.getD (i + 1) 0 - samplingIntervals.getD i 0) / sizeWindow) =
        (fun i => (samplingIntervals.getD (i + 1) 0 -
          samplingIntervals.getD i 0) / sizeWindow - 1) from rfl]
    rw [rangeMap_getD _ _ _ _ hi]
  · simp only [ssSizeSamplers, if_neg hof]
    rw [rangeMap_getD _ _ _ _ hi, Nat.sub_zero]

/-- Claim C6: every batch produced by the grouped sampler contains only
start indices inside a single group interval `[offsets[k], offsets[k+1])`,
and (via the speaker-boundary lookup of `getSpeakerLabel`) every index of
a batch resolves to the same group id `k` — no batch mixes two groups.
Hypotheses mirror the program: the offsets arrays passed by the loader are
nondecreasing and start at 0, the `torch.randperm` draws are numbers below
their argument, and the phase offset chosen by `getDataLoader` is at most
`sizeWindow // 2 ≤ sizeWindow`. -/
theorem C6_theorem (randperm : Nat → Nat → List Nat) (batchSize : Nat)
    (samplingIntervals : List Nat) (sizeWindow offset : Nat)
    (hperm : ∀ i v x, x ∈ randperm i v → x < v)
    (hmono : List.Chain' (· ≤ ·) samplingIntervals)
    (hhead : samplingIntervals.getD 0 1 = 0)
    (hw : 0 < sizeWindow) (hoff : offset ≤ sizeWindow) :
    ∃ bs, sameSpeakerBatches randperm batchSize samplingIntervals sizeWindow offset = some bs ∧
      ∀ b ∈ bs, ∃ k, k + 1 < samplingIntervals.length ∧
        ∀ idx ∈ b,
          samplingIntervals.getD k 0 ≤ idx ∧
          idx < samplingIntervals.getD (k + 1) 0 ∧
          getSpeakerLabel samplingIntervals idx = some k := by
  refine ⟨sameSpeakerBatchesCore randperm batchSize samplingIntervals sizeWindow offset,
    by unfold sameSpeakerBatches; rw [if_neg (fun h => h hhead)], ?_⟩
  intro b hb
  unfold sameSpeakerBatchesCore at hb
  simp only [List.mem_flatMap, List.mem_map, List.mem_filter, List.mem_range] at hb
  obtain ⟨p, ⟨k, ⟨hkrange, _⟩, hpeq⟩, c, hcmem, hbeq⟩ := hb
  refine ⟨k, by omega, ?_⟩
  intro idx hidx
  rw [← hbeq] at hidx
  simp only [List.mem_map] at hidx
  obtain ⟨x, hxc, hxeq⟩ := hidx
  have hp1 : p.1 = k := by rw [← hpeq]
  have hp2 : p.2 = randperm k
      ((ssSizeSamplers samplingIntervals sizeWindow offset).getD k 0) := by
    rw [← hpeq]
  rw [hp1] at hcmem hxeq
  have hxrp : x ∈ p.2 := sliceChunks_mem _ _ _ _ _ _ hcmem x hxc
  have hxlt : x < (ssSizeSamplers samplingIntervals sizeWindow offset).getD k 0 := by
    rw [hp2] at hxrp
    exact hperm _ _ _ hxrp
  rw [ssSizeSamplers_getD samplingIntervals sizeWindow offset k hkrange] at hxlt
  have hadj : samplingIntervals.getD k 0 ≤ samplingIntervals.getD (k + 1) 0 :=
    chain'_le_getD hmono (by omega) (by omega)
  set g := samplingIntervals.getD (k + 1) 0 - samplingIntervals.getD k 0 with hg
  set q := g / sizeWindow with hq
  have hup : offset + x * sizeWindow < g := by
    rcases Nat.eq_zero_or_pos offset with hz | hpos
    · rw [if_neg (by omega)] at hxlt
      have hx1 : x + 1 ≤ q := by omega
      have hmul : (x + 1) * sizeWindow ≤ g := (Nat.le_div_iff_mul_le hw).mp (hq ▸ hx1)
      have hexp : (x + 1) * sizeWindow = x * sizeWindow + sizeWindow := by ring
      omega
    · rw [if_pos hpos] at hxlt
      have hx2 : x + 2 ≤ q := by omega
      have hmul : (x + 2) * sizeWindow ≤ g := (Nat.le_div_iff_mul_le hw).mp (hq ▸ hx2)
      have hexp : (x + 2) * sizeWindow = x * sizeWindow + sizeWindow + sizeWindow := by ring
      omega
  have hidxeq : idx = offset + x * sizeWindow + samplingIntervals.getD k 0 := by
    rw [← hxeq, ssGetIndex]
  have hlow : samplingIntervals.getD k 0 ≤ idx := by omega
  have hhigh : idx < samplingIntervals.getD (k + 1) 0 := by omega
  refine ⟨hlow, hhigh, ?_⟩
  unfold getSpeakerLabel
  rw [findFirstGreater_bracket hmono idx k (by omega) hlow hhigh]
  simp

/-- Claim C6, witness: intervals `[0, 300, 700]`, window 100, offset 50,
batch size 2, with the identity permutation family for the draws. -/
theorem C6_witness :
    (∀ i v x, x ∈ (fun _ v => List.range v : Nat → Nat → List Nat) i v → x < v) ∧
    List.Chain' (· ≤ ·) ([0, 300, 700] : List Nat) ∧
    ([0, 300, 700] : List Nat).getD 0 1 = 0 ∧
    0 < 100 ∧ 50 ≤ 100 ∧
    (∃ bs, sameSpeakerBatches (fun _ v => List.range v) 2 [0, 300, 700] 100 50 = some bs ∧
      ∀ b ∈ bs, ∃ k, k + 1 < ([0, 300, 700] : List Nat).length ∧
        ∀ idx ∈ b,
          ([0, 300, 700] : List Nat).getD k 0 ≤ idx ∧
          idx < ([0, 300, 700] : List Nat).getD (k + 1) 0 ∧
          getSpeakerLabel [0, 300, 700] idx = some k) :=
  ⟨fun _ v x hx => List.mem_range.mp hx, by simp [List.chain'_cons], by decide, by decide,
    by decide,
    C6_theorem (fun _ v => List.range v) 2 [0, 300, 700] 100 50
      (fun _ v x hx => List.mem_range.mp hx) (by simp [List.chain'_cons]) (by decide)
      (by decide) (by decide)⟩

/-! ## Claims C2 and C9: the parsed buffer's offset arrays and contents -/

/-- Cumulative sums: the sequence-boundary entries appended for retained
sizes `sizes` once the running total stands at `t`. -/
def cumFrom (t : Nat) : List Nat → List Nat
  | [] => []
  | s :: rest => (t + s) :: cumFrom (t + s) rest

/-- The final boundary equals the base plus the total retained size. -/
lemma cumFrom_getLastD (sizes : List Nat) : ∀ (t d : Nat),
    (t :: cumFrom t sizes).getLastD d = t + sizes.sum := by
  induction sizes with
  | nil => intro t d; simp [cumFrom]
  | cons s rest ih =>
    intro t d
    rw [cumFrom, List.getLastD_cons, ih (t + s) t]
    simp [Nat.add_assoc]

/-- One boundary per retained size. -/
lemma cumFrom_length (sizes : List Nat) : ∀ t, (cumFrom t sizes).length = sizes.length := by
  induction sizes with
  | nil => intro t; rfl
  | cons s rest ih => intro t; simp [cumFrom, ih]

/-- Positive retained sizes make the boundary sequence strictly
increasing. -/
lemma cumFrom_chain_lt (sizes : List Nat) (hpos : ∀ s ∈ sizes, 0 < s) :
    ∀ t, List.Chain' (· < ·) (t :: cumFrom t sizes) := by
  induction sizes with
  | nil => intro t; exact List.chain'_singleton t
  | cons s rest ih =>
    intro t
    rw [cumFrom, List.chain'_cons]
    exact ⟨by have := hpos s (by simp); omega,
      ih (fun x hx => hpos x (by simp [hx])) (t + s)⟩

/-- A constant list is `≤`-chained. -/
lemma chain'_le_replicate (k a : Nat) : List.Chain' (· ≤ ·) (List.replicate k a) := by
  induction k with
  | zero => exact List.chain'_nil
  | succ n ih =>
    rw [List.replicate_succ]
    cases n with
    | zero => exact List.chain'_singleton a
    | succ m =>
      rw [List.replicate_succ, List.chain'_cons, ← List.replicate_succ]
      exact ⟨le_refl a, ih⟩

/-- Closed form of the advancing while loop (with enough fuel): it pushes
one copy of the running total per registry id crossed and stops exactly at
`speaker`. -/
lemma speakerWhileGo_eq (nSpeakers sz : Nat) :
    ∀ (n i : Nat) (acc : List Nat) (fuel : Nat), n < fuel → i + n < nSpeakers →
      speakerWhileGo nSpeakers (i + n) sz fuel i acc =
        some (i + n, acc ++ List.replicate n sz) := by
  intro n
  induction n with
  | zero =>
    intro i acc fuel hfuel hsp
    match fuel, hfuel with
    | f + 1, _ =>
      simp only [speakerWhileGo, if_pos (show i < nSpeakers by omega)]
      rw [if_neg (by omega)]
      simp
  | succ m ih =>
    intro i acc fuel hfuel hsp
    match fuel, hfuel with
    | f + 1, _ =>
      simp only [speakerWhileGo, if_pos (show i < nSpeakers by omega)]
      rw [if_pos (by omega)]
      have := ih (i + 1) (acc ++ [sz]) f (by omega) (by omega)
      rw [show i + 1 + m = i + (m + 1) by omega] at this
      rw [this]
      simp [List.replicate_succ, List.append_assoc]

/-- `speakerWhile` below the registry bound. -/
lemma speakerWhile_eq (nSpeakers speaker i sz : Nat) (acc : List Nat)
    (hle : i ≤ speaker) (hlt : speaker < nSpeakers) :
    speakerWhile nSpeakers speaker i sz acc =
      some (speaker, acc ++ List.replicate (speaker - i) sz) := by
  obtain ⟨d, hd⟩ : ∃ d, speaker = i + d := ⟨speaker - i, by omega⟩
  subst hd
  unfold speakerWhile
  rw [show i + d + 1 - i = d + 1 by omega, show i + d - i = d by omega]
  exact speakerWhileGo_eq nSpeakers sz d i acc (d + 1) (by omega) hlt

/-- A skipped item leaves the loop state unchanged. -/
lemma parseStep_skip (nSpeakers : Nat) (pd wd : Option LabelDict) (ps : Nat)
    (st : ParseState) (it : Item) (h : ¬ keepItem pd wd it.seqName = true) :
    parseStep nSpeakers pd wd ps st it = some st := by
  simp [parseStep, h]

/-- A retained item (valid speaker, cursor not past it) advances the loop
state by exactly one sequence boundary, the speaker boundaries crossed,
and the truncated waveform. -/
lemma parseStep_keep (nSpeakers : Nat) (pd wd : Option LabelDict) (ps : Nat)
    (st : ParseState) (it : Item) (hk : keepItem pd wd it.seqName = true)
    (hi : st.indexSpeaker ≤ it.speaker) (hsp : it.speaker < nSpeakers) :
    parseStep nSpeakers pd wd ps st it = some (ParseState.mk
      (st.speakerLabel ++ List.replicate (it.speaker - st.indexSpeaker) st.speakerSize)
      (st.seqLabel ++ [st.seqLabel.getLastD 0 + (truncSeq pd ps it).length])
      (st.phoneLabels ++ (match pd with | none => [] | some _ => dictLabels pd it.seqName))
      (st.wordLabels ++ (match wd with | none => [] | some _ => dictLabels wd it.seqName))
      (st.speakerSize + (truncSeq pd ps it).length)
      it.speaker
      (st.tmpData ++ [truncSeq pd ps it])) := by
  simp only [parseStep, hk, not_true_eq_false, if_false]
  rw [speakerWhile_eq nSpeakers it.speaker st.indexSpeaker st.speakerSize st.speakerLabel hi hsp]
  dsimp only
  rw [if_neg (fun h => h rfl)]
  cases pd <;> cases wd <;> rfl

/-- Main invariant of the parse loop, for items sorted by speaker with all
retained speakers inside the registry: the loop succeeds, appends exactly
the truncated retained waveforms, extends the sequence boundaries by their
cumulative sums, and keeps the speaker boundaries nonempty, nondecreasing,
bounded by the running total, and anchored at the same head. -/
lemma parseLoop_ok (nSpeakers : Nat) (pd wd : Option LabelDict) (ps : Nat) :
    ∀ (items : List Item) (st : ParseState),
      List.Pairwise (fun a b => a.speaker ≤ b.speaker) items →
      (∀ it ∈ items, keepItem pd wd it.seqName = true → it.speaker < nSpeakers) →
      (∀ it ∈ items, keepItem pd wd it.seqName = true → st.indexSpeaker ≤ it.speaker) →
      st.speakerLabel ≠ [] →
      List.Chain' (· ≤ ·) st.speakerLabel →
      (∀ x ∈ st.speakerLabel, x ≤ st.speakerSize) →
      ∃ st', parseLoop nSpeakers pd wd ps st items = some st' ∧
        st'.tmpData = st.tmpData ++
          (items.filter (fun it => keepItem pd wd it.seqName)).map (truncSeq pd ps) ∧
        st'.seqLabel = st.seqLabel ++ cumFrom (st.seqLabel.getLastD 0)
          ((items.filter (fun it => keepItem pd wd it.seqName)).map
            (fun it => (truncSeq pd ps it).length)) ∧
        st'.speakerSize = st.speakerSize +
          ((items.filter (fun it => keepItem pd wd it.seqName)).map
            (fun it => (truncSeq pd ps it).length)).sum ∧
        st'.speakerLabel ≠ [] ∧
        st'.speakerLabel.head? = st.speakerLabel.head? ∧
        List.Chain' (· ≤ ·) st'.speakerLabel ∧
        (∀ x ∈ st'.speakerLabel, x ≤ st'.speakerSize) := by
  intro items
  induction items with
  | nil =>
    intro st _ _ _ h1 h2 h3
    exact ⟨st, rfl, by simp, by simp [cumFrom], by simp, h1, rfl, h2, h3⟩
  | cons it rest ih =>
    intro st hpw hspk hik h1 h2 h3
    obtain ⟨hhead, htail⟩ := List.pairwise_cons.mp hpw
    by_cases hk : keepItem pd wd it.seqName = true
    · -- retained item
      have hfc : List.filter (fun b => keepItem pd wd b.seqName) (it :: rest) =
          it :: List.filter (fun b => keepItem pd wd b.seqName) rest := by
        simp [List.filter_cons, hk]
      have hι : st.indexSpeaker ≤ it.speaker := hik it (by simp) hk
      have hsp : it.speaker < nSpeakers := hspk it (by simp) hk
      obtain ⟨st2, hstep2, hsl2, hsq2, hss2, hix2, htd2⟩ :
          ∃ st2, parseStep nSpeakers pd wd ps st it = some st2 ∧
            st2.speakerLabel = st.speakerLabel ++
              List.replicate (it.speaker - st.indexSpeaker) st.speakerSize ∧
            st2.seqLabel = st.seqLabel ++
              [st.seqLabel.getLastD 0 + (truncSeq pd ps it).length] ∧
            st2.speakerSize = st.speakerSize + (truncSeq pd ps it).length ∧
            st2.indexSpeaker = it.speaker ∧
            st2.tmpData = st.tmpData ++ [truncSeq pd ps it] :=
        ⟨_, parseStep_keep nSpeakers pd wd ps st it hk hι hsp, rfl, rfl, rfl, rfl, rfl⟩
      have hne2 : st2.speakerLabel ≠ [] := by
        rw [hsl2]
        exact List.append_ne_nil_of_left_ne_nil h1 _
      have hchain2 : List.Chain' (· ≤ ·) st2.speakerLabel := by
        rw [hsl2, List.chain'_append]
        refine ⟨h2, chain'_le_replicate _ _, ?_⟩
        intro x hx y hy
        have hxmem : x ∈ st.speakerLabel := by
          obtain ⟨hne0, hxeq⟩ := List.mem_getLast?_eq_getLast hx
          rw [hxeq]
          exact List.getLast_mem hne0
        have hyv : y = st.speakerSize := by
          rcases Nat.eq_zero_or_pos (it.speaker - st.indexSpeaker) with hz | hpos
          · rw [hz] at hy
            simp at hy
          · obtain ⟨m, hm⟩ : ∃ m, it.speaker - st.indexSpeaker = m + 1 :=
              ⟨it.speaker - st.indexSpeaker - 1, by omega⟩
            rw [hm, List.replicate_succ] at hy
            simp only [List.head?_cons, Option.mem_def, Option.some.injEq] at hy
            omega
        rw [hyv]
        exact h3 x hxmem
      have hbnd2 : ∀ x ∈ st2.speakerLabel, x ≤ st2.speakerSize := by
        intro x hx
        rw [hsl2] at hx
        rw [hss2]
        rcases List.mem_append.mp hx with hx | hx
        · exact Nat.le_trans (h3 x hx) (Nat.le_add_right _ _)
        · rw [List.eq_of_mem_replicate hx]
          exact Nat.le_add_right _ _
      have hik2 : ∀ b ∈ rest, keepItem pd wd b.seqName = true →
          st2.indexSpeaker ≤ b.speaker := by
        intro b hb _
        rw [hix2]
        exact hhead b hb
      obtain ⟨st', hloop, htmp, hseq, hsize, hne', hhd', hch', hbnd'⟩ :=
        ih st2 htail (fun b hb hbk => hspk b (by simp [hb]) hbk) hik2 hne2 hchain2 hbnd2
      refine ⟨st', ?_, ?_, ?_, ?_, hne', ?_, hch', hbnd'⟩
      · simp only [parseLoop]
        rw [hstep2]
        exact hloop
      · rw [hfc, htmp, htd2, List.map_cons]
        simp [List.append_assoc]
      · rw [hfc, hseq, hsq2, List.getLastD_concat, List.map_cons, cumFrom]
        simp [List.append_assoc]
      · rw [hfc, hsize, hss2, List.map_cons, List.sum_cons]
        omega
      · rw [hhd', hsl2, List.head?_append_of_ne_nil _ h1]
    · -- skipped item
      have hfc : List.filter (fun b => keepItem pd wd b.seqName) (it :: rest) =
          List.filter (fun b => keepItem pd wd b.seqName) rest := by
        simp [List.filter_cons, hk]
      have hstep := parseStep_skip nSpeakers pd wd ps st it hk
      obtain ⟨st', hloop, htmp, hseq, hsize, hne', hhd', hch', hbnd'⟩ :=
        ih st htail (fun b hb hbk => hspk b (by simp [hb]) hbk)
          (fun b hb hbk => hik b (by simp [hb]) hbk) h1 h2 h3
      refine ⟨st', ?_, ?_, ?_, ?_, hne', hhd', hch', hbnd'⟩
      · simp only [parseLoop]
        rw [hstep]
        exact hloop
      · rw [hfc]
        exact htmp
      · rw [hfc]
        exact hseq
      · rw [hfc]
        exact hsize

/-- The sort key order is transitive. -/
lemma itemLE_trans (a b c : Item) (hab : itemLE a b = true) (hbc : itemLE b c = true) :
    itemLE a c = true := by
  simp only [itemLE, decide_eq_true_eq] at hab hbc ⊢
  rcases hab with h | ⟨h1, h2⟩ <;> rcases hbc with h' | ⟨h1', h2'⟩
  · left; omega
  · left; omega
  · left; omega
  · right; exact ⟨h1.trans h1', le_trans h2 h2'⟩

/-- The sort key order is total. -/
lemma itemLE_total (a b : Item) : itemLE a b = true ∨ itemLE b a = true := by
  simp only [itemLE, decide_eq_true_eq]
  rcases Nat.lt_trichotomy a.speaker b.speaker with h | h | h
  · left; left; exact h
  · rcases Nat.le_total a.seqName b.seqName with hs | hs
    · left; right; exact ⟨h, hs⟩
    · right; right; exact ⟨h.symm, hs⟩
  · right; left; exact h

/-- Inserting is a permutation. -/
lemma insertItem_perm (a : Item) (l : List Item) : (insertItem a l).Perm (a :: l) := by
  induction l with
  | nil => exact List.Perm.refl _
  | cons b rest ih =>
    by_cases h : itemLE a b = true
    · rw [insertItem, if_pos h]
    · rw [insertItem, if_neg h]
      exact (List.Perm.cons b ih).trans (List.Perm.swap _ _ _)

/-- The sort is a permutation: the same items come out. -/
lemma sortItems_perm (l : List Item) : (sortItems l).Perm l := by
  induction l with
  | nil => exact List.Perm.refl _
  | cons a rest ih =>
    exact (insertItem_perm a (sortItems rest)).trans (List.Perm.cons a ih)

/-- Inserting preserves sortedness. -/
lemma insertItem_pairwise (a : Item) (l : List Item)
    (hl : l.Pairwise (fun x y => itemLE x y = true)) :
    (insertItem a l).Pairwise (fun x y => itemLE x y = true) := by
  induction l with
  | nil => simp [insertItem]
  | cons b rest ih =>
    obtain ⟨hb, hrest⟩ := List.pairwise_cons.mp hl
    by_cases h : itemLE a b = true
    · rw [insertItem, if_pos h, List.pairwise_cons]
      refine ⟨?_, hl⟩
      intro c hc
      rcases List.mem_cons.mp hc with rfl | hc
      · exact h
      · exact itemLE_trans a b c h (hb c hc)
    · rw [insertItem, if_neg h, List.pairwise_cons]
      refine ⟨?_, ih hrest⟩
      intro c hc
      rcases List.mem_cons.mp ((insertItem_perm a rest).mem_iff.mp hc) with rfl | hc
      · rcases itemLE_total c b with h' | h'
        · exact absurd h' h
        · exact h'
      · exact hb c hc

/-- The sort sorts. -/
lemma sortItems_pairwise (l : List Item) :
    (sortItems l).Pairwise (fun x y => itemLE x y = true) := by
  induction l with
  | nil => simp [sortItems]
  | cons a rest ih => exact insertItem_pairwise a (sortItems rest) ih

/-- Success and shape of the whole package parse, given at least one
retained sequence and all retained speakers inside the registry. -/
lemma parseNextDataBlock_ok (nSpeakers : Nat) (pd wd : Option LabelDict) (ps : Nat)
    (nextData : List Item)
    (hspk : ∀ it ∈ nextData, keepItem pd wd it.seqName = true → it.speaker < nSpeakers)
    (hsome : ∃ it ∈ nextData, keepItem pd wd it.seqName = true) :
    ∃ out, parseNextDataBlock nSpeakers pd wd ps nextData = some out ∧
      out.data = (((sortItems nextData).filter
        (fun it => keepItem pd wd it.seqName)).map (truncSeq pd ps)).flatten ∧
      out.seqLabel = 0 :: cumFrom 0 (((sortItems nextData).filter
        (fun it => keepItem pd wd it.seqName)).map
          (fun it => (truncSeq pd ps it).length)) ∧
      out.seqLabel.getLastD 0 = out.data.length ∧
      out.speakerLabel.head? = some 0 ∧
      out.speakerLabel.getLastD 0 = out.data.length ∧
      List.Chain' (· ≤ ·) out.speakerLabel := by
  have hpw : List.Pairwise (fun a b : Item => a.speaker ≤ b.speaker) (sortItems nextData) := by
    refine (sortItems_pairwise nextData).imp ?_
    intro a b hab
    simp only [itemLE, decide_eq_true_eq] at hab
    omega
  have hspk' : ∀ it ∈ sortItems nextData,
      keepItem pd wd it.seqName = true → it.speaker < nSpeakers := by
    intro b hb
    exact hspk b ((sortItems_perm nextData).mem_iff.mp hb)
  obtain ⟨st', hloop, htmp, hseq, hsize, hne', hhd', hch', hbnd'⟩ :=
    parseLoop_ok nSpeakers pd wd ps (sortItems nextData)
      (ParseState.mk [0] [0] [] [] 0 0 []) hpw hspk'
      (fun _ _ _ => Nat.zero_le _) (by simp) (List.chain'_singleton 0)
      (by intro x hx; simp at hx; omega)
  have htmp' : st'.tmpData = ((sortItems nextData).filter
      (fun it => keepItem pd wd it.seqName)).map (truncSeq pd ps) := by
    rw [htmp]
    simp
  have hseq' : st'.seqLabel = 0 :: cumFrom 0 (((sortItems nextData).filter
      (fun it => keepItem pd wd it.seqName)).map
        (fun it => (truncSeq pd ps it).length)) := by
    rw [hseq]
    rfl
  have hretne : (sortItems nextData).filter (fun it => keepItem pd wd it.seqName) ≠ [] := by
    obtain ⟨w, hw1, hw2⟩ := hsome
    exact List.ne_nil_of_mem (List.mem_filter.mpr
      ⟨(sortItems_perm nextData).mem_iff.mpr hw1, hw2⟩)
  have htdne : st'.tmpData ≠ [] := by
    rw [htmp']
    intro hcon
    rw [List.map_eq_nil_iff] at hcon
    exact hretne hcon
  obtain ⟨y, ys, hty⟩ := List.exists_cons_of_ne_nil htdne
  have hcat : torch_cat st'.tmpData = some st'.tmpData.flatten := by
    rw [hty]
    rfl
  have hsum : st'.tmpData.flatten.length = (((sortItems nextData).filter
      (fun it => keepItem pd wd it.seqName)).map
        (fun it => (truncSeq pd ps it).length)).sum := by
    rw [List.length_flatten, htmp', List.map_map]
    rfl
  refine ⟨ParseOut.mk (st'.speakerLabel ++ [st'.speakerSize]) st'.seqLabel
    st'.phoneLabels st'.wordLabels st'.tmpData.flatten, ?_, ?_, ?_, ?_, ?_, ?_, ?_⟩
  · simp only [parseNextDataBlock, hloop, hcat]
  · rw [htmp']
  · exact hseq'
  · rw [hseq', cumFrom_getLastD, hsum]
    omega
  · rw [List.head?_append_of_ne_nil _ hne', hhd']
    rfl
  · rw [List.getLastD_concat, hsize, hsum]
    simp
  · rw [List.chain'_append]
    refine ⟨hch', List.chain'_singleton _, ?_⟩
    intro x hx y hy
    have hxmem : x ∈ st'.speakerLabel := by
      obtain ⟨hne0, hxeq⟩ := List.mem_getLast?_eq_getLast hx
      rw [hxeq]
      exact List.getLast_mem hne0
    have hyv : y = st'.speakerSize := by
      simp only [List.head?_cons, Option.mem_def, Option.some.injEq] at hy
      omega
    rw [hyv]
    exact hbnd' x hxmem

/-- Claim C2, counterexample: registry of 3 speakers `[0, 1, 2]`, buffer
holding speakers 0 and 2 only.  Crossing the absent registry speaker 1
pushes a duplicate boundary: `speakerLabel = [0, 1, 1, 2]` is not strictly
increasing, and has two boundaries for one crossed id rather than one per
distinct speaker present. -/
theorem C2_counterexample :
    parseNextDataBlock 3 none none 0 [Item.mk 0 0 [5], Item.mk 2 1 [7]] =
      some (ParseOut.mk [0, 1, 1, 2] [0, 1, 2] [] [] [5, 7]) ∧
    ¬ List.Chain' (· < ·) [0, 1, 1, 2] :=
  ⟨by decide, by simp [List.chain'_cons]⟩

/-- Claim C2 (amended): after `parseNextDataBlock` builds a buffer (with
every retained speaker in the registry and at least one retained
sequence), both offset arrays start at 0 and end at the buffer's total
sample count; the sequence offsets are strictly increasing — provided
every retained sequence is nonempty after label truncation — with one
boundary per retained sequence plus the trailing total; the speaker
offsets are only nondecreasing: one boundary is pushed for every registry
id crossed, so equal consecutive boundaries appear when a registry speaker
below the maximum present has no retained samples. -/
theorem C2_theorem (nSpeakers : Nat) (pd wd : Option LabelDict) (ps : Nat)
    (nextData : List Item)
    (hspk : ∀ it ∈ nextData, keepItem pd wd it.seqName = true → it.speaker < nSpeakers)
    (hpos : ∀ it ∈ nextData, keepItem pd wd it.seqName = true →
      0 < (truncSeq pd ps it).length)
    (hsome : ∃ it ∈ nextData, keepItem pd wd it.seqName = true) :
    ∃ out, parseNextDataBlock nSpeakers pd wd ps nextData = some out ∧
      out.seqLabel.head? = some 0 ∧
      out.seqLabel.getLastD 0 = out.data.length ∧
      List.Chain' (· < ·) out.seqLabel ∧
      out.seqLabel.length =
        1 + (nextData.filter (fun it => keepItem pd wd it.seqName)).length ∧
      out.speakerLabel.head? = some 0 ∧
      out.speakerLabel.getLastD 0 = out.data.length ∧
      List.Chain' (· ≤ ·) out.speakerLabel := by
  obtain ⟨out, ho, hdata, hseq, hlast, hhd, hslast, hch⟩ :=
    parseNextDataBlock_ok nSpeakers pd wd ps nextData hspk hsome
  refine ⟨out, ho, ?_, hlast, ?_, ?_, hhd, hslast, hch⟩
  · rw [hseq]
    rfl
  · rw [hseq]
    apply cumFrom_chain_lt
    intro s hs
    rw [List.mem_map] at hs
    obtain ⟨it, hit, hlen⟩ := hs
    rw [List.mem_filter] at hit
    rw [← hlen]
    exact hpos it ((sortItems_perm nextData).mem_iff.mp hit.1) hit.2
  · rw [hseq]
    simp only [List.length_cons, cumFrom_length, List.length_map]
    rw [((sortItems_perm nextData).filter _).length_eq]
    omega

/-- Claim C2, witness: two speakers, both present, no label tracks. -/
theorem C2_witness :
    (∀ it ∈ [Item.mk 0 0 [5], Item.mk 1 1 [7, 8]],
      keepItem none none it.seqName = true → it.speaker < 2) ∧
    (∀ it ∈ [Item.mk 0 0 [5], Item.mk 1 1 [7, 8]],
      keepItem none none it.seqName = true → 0 < (truncSeq none 0 it).length) ∧
    (∃ it ∈ [Item.mk 0 0 [5], Item.mk 1 1 [7, 8]],
      keepItem none none it.seqName = true) ∧
    (∃ out, parseNextDataBlock 2 none none 0 [Item.mk 0 0 [5], Item.mk 1 1 [7, 8]] =
        some out ∧
      out.seqLabel.head? = some 0 ∧
      out.seqLabel.getLastD 0 = out.data.length ∧
      List.Chain' (· < ·) out.seqLabel ∧
      out.seqLabel.length = 1 + (([Item.mk 0 0 [5], Item.mk 1 1 [7, 8]]).filter
        (fun it => keepItem none none it.seqName)).length ∧
      out.speakerLabel.head? = some 0 ∧
      out.speakerLabel.getLastD 0 = out.data.length ∧
      List.Chain' (· ≤ ·) out.speakerLabel) :=
  ⟨by decide, by decide, by decide,
    C2_theorem 2 none none 0 [Item.mk 0 0 [5], Item.mk 1 1 [7, 8]]
      (by decide) (by decide) (by decide)⟩

/-- Claim C9, counterexample: a package whose only sequence is absent from
the configured phone track.  Every sequence is skipped, `tmpData` stays
empty, and `torch.cat([])` raises — `parseNextDataBlock` does *not*
complete normally when all sequences are absent. -/
theorem C9_counterexample :
    parseNextDataBlock 1 (some [(5, [1])]) none 1 [Item.mk 0 0 [3, 4]] = none := by
  decide

/-- Claim C9 (amended): a sequence absent from a configured label track is
handled non-fatally — its samples are silently excluded and
`parseNextDataBlock` still returns a well-formed buffer holding exactly
the retained sequences (truncated, in sorted order), with offset arrays
running from 0 to the buffer length — for any subset of sequences being
absent, *provided at least one sequence is retained*; when all are absent
the concatenation of an empty list fails. -/
theorem C9_theorem (nSpeakers : Nat) (pd wd : Option LabelDict) (ps : Nat)
    (nextData : List Item)
    (hspk : ∀ it ∈ nextData, keepItem pd wd it.seqName = true → it.speaker < nSpeakers)
    (hsome : ∃ it ∈ nextData, keepItem pd wd it.seqName = true) :
    ∃ out, parseNextDataBlock nSpeakers pd wd ps nextData = some out ∧
      out.data = (((sortItems nextData).filter
        (fun it => keepItem pd wd it.seqName)).map (truncSeq pd ps)).flatten ∧
      out.seqLabel.head? = some 0 ∧
      out.seqLabel.getLastD 0 = out.data.length ∧
      out.speakerLabel.head? = some 0 ∧
      out.speakerLabel.getLastD 0 = out.data.length := by
  obtain ⟨out, ho, hdata, hseq, hlast, hhd, hslast, _⟩ :=
    parseNextDataBlock_ok nSpeakers pd wd ps nextData hspk hsome
  refine ⟨out, ho, hdata, ?_, hlast, hhd, hslast⟩
  rw [hseq]
  rfl

/-- Claim C9, witness: three sequences, the middle one absent from the
phone track and silently dropped. -/
theorem C9_witness :
    (∀ it ∈ [Item.mk 0 0 [9, 9, 9], Item.mk 0 1 [7], Item.mk 1 2 [8, 8]],
      keepItem (some [(0, [1, 2]), (2, [3])]) none it.seqName = true → it.speaker < 2) ∧
    (∃ it ∈ [Item.mk 0 0 [9, 9, 9], Item.mk 0 1 [7], Item.mk 1 2 [8, 8]],
      keepItem (some [(0, [1, 2]), (2, [3])]) none it.seqName = true) ∧
    (∃ out, parseNextDataBlock 2 (some [(0, [1, 2]), (2, [3])]) none 1
        [Item.mk 0 0 [9, 9, 9], Item.mk 0 1 [7], Item.mk 1 2 [8, 8]] = some out ∧
      out.data = (((sortItems [Item.mk 0 0 [9, 9, 9], Item.mk 0 1 [7], Item.mk 1 2 [8, 8]]).filter
        (fun it => keepItem (some [(0, [1, 2]), (2, [3])]) none it.seqName)).map
          (truncSeq (some [(0, [1, 2]), (2, [3])]) 1)).flatten ∧
      out.seqLabel.head? = some 0 ∧
      out.seqLabel.getLastD 0 = out.data.length ∧
      out.speakerLabel.head? = some 0 ∧
      out.speakerLabel.getLastD 0 = out.data.length) :=
  ⟨by decide, by decide,
    C9_theorem 2 (some [(0, [1, 2]), (2, [3])]) none 1
      [Item.mk 0 0 [9, 9, 9], Item.mk 0 1 [7], Item.mk 1 2 [8, 8]]
      (by decide) (by decide)⟩
